import Mathlib

/-!
Verification of the webhook-ingestion and chat-streaming core of
`cf_ai_jerens` (`src/server.ts`), shallowly embedded in Lean 4.

The embedding models the `Chat` agent's event store (a SQLite table with
`id TEXT PRIMARY KEY`, created in `onStart`) as a list of rows, and the
handlers (`handleEvent`, `onRequest`, `executeTask`, the worker `fetch`)
as pure functions with explicit state passing.  Fallible operations
(`JSON.parse`, failing payload processing, rejected SQL inserts) are
modelled with `Except`.

The source's `handleEvent` references an `eventId` that is not bound in
the shown code (the repository's own design notes flag this); it is
modelled here as an explicit parameter, matching the documented contract
`handle(eventId, type, payload)`.  `verifySignature`, `processPayload`,
`cleanupMessages`/`processToolCalls` and the `streamText` step loop are
declared or called in `server.ts` but their bodies are not in the
repository sources; where needed they are modelled from the spec and
marked as such.
-/

/-- One row of the `events` table created by `onStart`
(`id TEXT PRIMARY KEY, type, payload, ...`).  Only the columns the
verified properties depend on are carried; the remaining display columns
(`title`, `url`, `actor`, `timestamp`, ...) do not affect dedup. -/
structure EventRow where
  id : String
  type : String
  payload : String
deriving DecidableEq, Repr

/-- Outcome of one ingestion: the handler either skipped a duplicate
(`console.log "already processed, skipping"; return`) or processed and
stored the event. -/
inductive Outcome
  | AlreadyProcessed
  | Processed
deriving DecidableEq, Repr

/-- Number of stored rows carrying a given event id. -/
def countId (store : List EventRow) (eventId : String) : Nat :=
  store.countP (fun r => r.id == eventId)

/-- The duplicate check `SELECT id FROM events WHERE id = ${eventId}`
followed by `existing.length > 0`. -/
def existsId (store : List EventRow) (eventId : String) : Bool :=
  store.any (fun r => r.id == eventId)

/-- Model of `Chat.handleEvent` from `src/server.ts`: look the id up, skip if
present, otherwise run `processPayload` (a black box that may fail, its
exception propagating) and insert the row.  The store is threaded
explicitly; on failure the store is returned unchanged because the
insert statement is never reached. -/
def handleEvent (processPayload : String → Except String Unit)
    (eventId etype payload : String) (store : List EventRow) :
    List EventRow × Except String Outcome :=
  if existsId store eventId then
    (store, .ok .AlreadyProcessed)
  else
    match processPayload payload with
    | .error e => (store, .error e)
    | .ok _ => (store ++ [⟨eventId, etype, payload⟩], .ok .Processed)

/-- An inbound webhook request as `onRequest` sees it: the HTTP method,
the `X-Event-Type` and `X-Signature` headers (absent headers are
`none`, mirroring `headers.get` returning `null`) and the raw body
text. -/
structure HttpRequest where
  method : String
  eventTypeHeader : Option String
  signatureHeader : Option String
  body : String

/-- An HTTP response: status code and body, as built by
`new Response(body, \x7b status \x7d)`. -/
structure HttpResponse where
  status : Nat
  body : String
deriving DecidableEq, Repr

/-- Model of `Chat.onRequest` from `src/server.ts`: reject non-POST with 405,
verify the signature of the raw body (401 on failure), then
`JSON.parse` the body — unguarded, so a parse failure is an uncaught
exception, modelled as `.error` — and run `handleEvent`, whose own
exceptions also propagate; on success respond `200 OK`.

`verifySignature` and `JSON.parse` are not defined in the repository
sources and are passed as parameters; `eventId` is likewise a parameter
because the source's `handleEvent` leaves it unbound (see module
docstring). -/
def onRequest (verifySignature : String → Option String → Bool)
    (parse : String → Option String)
    (processPayload : String → Except String Unit)
    (eventId : String)
    (store : List EventRow) (req : HttpRequest) :
    Except String (HttpResponse × List EventRow) :=
  if req.method ≠ "POST" then
    .ok (⟨405, "Method not allowed"⟩, store)
  else if !(verifySignature req.body req.signatureHeader) then
    .ok (⟨401, "Invalid signature"⟩, store)
  else
    match parse req.body with
    | none => .error "SyntaxError: JSON.parse"
    | some payload =>
      match handleEvent processPayload eventId (req.eventTypeHeader.getD "") payload store with
      | (_, .error e) => .error e
      | (store2, .ok _) => .ok (⟨200, "OK"⟩, store2)

/-- One content part of a conversation turn: text, a tool call, or a
tool result (matching the `parts` array of the message shape used in
`server.ts`). -/
inductive TurnPart
  | text (s : String)
  | toolCall (tool : String) (callId : String) (args : String)
  | toolResult (callId : String) (res : String)
deriving DecidableEq, Repr

/-- One conversation turn: generated message id, role, content parts and
optional creation-time metadata, matching the object literal built in
`executeTask`. -/
structure Turn where
  id : String
  role : String
  parts : List TurnPart
  createdAt : Option String := none
deriving DecidableEq, Repr

/-- Model of `Chat.executeTask` from `src/server.ts`: `saveMessages` is called
with the existing `this.messages` spread first, followed by one new
user-role turn whose single text part is
`"Running scheduled task: " ++ description`.  `newId` stands for
`generateId()` and `now` for `new Date()`. -/
def executeTask (description : String) (newId now : String)
    (messages : List Turn) : List Turn :=
  messages ++
    [{ id := newId, role := "user",
       parts := [.text ("Running scheduled task: " ++ description)],
       createdAt := some now }]

/-- A response from the worker-level `fetch`: the JSON body of the
`/check-open-ai-key` endpoint, a response routed to the agent, or the
404 fallback. -/
inductive WorkerResponse
  | json (success : Bool)
  | agentRouted
  | notFound
deriving DecidableEq, Repr

/-- JavaScript truthiness of `process.env.X` as used by
`!!process.env.GOOGLE_GENERATIVE_AI_API_KEY`: an absent variable is
`undefined` (falsy) and the empty string is also falsy. -/
def jsTruthy : Option String → Bool
  | none => false
  | some s => s != ""

/-- What one call of the worker `fetch` produced: the response, and
whether the missing-key `console.error` report was emitted. -/
structure FetchOutcome where
  response : WorkerResponse
  reportedMissingKey : Bool
deriving DecidableEq, Repr

/-- The default-export `fetch` from `src/server.ts`: on
`/check-open-ai-key` respond `Response.json` with
`success = !!process.env.GOOGLE_GENERATIVE_AI_API_KEY`; on every other
path, `console.error` a missing-key report exactly when the key is
falsy, then route to the agent or fall back to 404.  `routed` stands
for `routeAgentRequest` finding a handler. -/
def workerFetch (apiKey : Option String) (pathname : String)
    (routed : Bool) : FetchOutcome :=
  if pathname == "/check-open-ai-key" then
    ⟨.json (jsTruthy apiKey), false⟩
  else
    ⟨if routed then .agentRouted else .notFound, !(jsTruthy apiKey)⟩

/-- Modelled from the spec: `verifySignature` is called in `onRequest`
but its body is not in the repository sources.  Per §4.1 the verifier
computes a keyed MAC over the raw body, hex-encodes it and compares it
to the provided signature with a constant-time equality check.  This is
the hex digit map (lowercase, as produced by typical hex encoders). -/
def hexDigit (n : Fin 16) : Char :=
  if n.val < 10 then Char.ofNat (48 + n.val) else Char.ofNat (87 + n.val)

/-- Hex encoding of one byte: high nibble then low nibble. -/
def hexByte (b : Fin 256) : List Char :=
  [hexDigit ⟨b.val / 16, by have := b.isLt; omega⟩,
   hexDigit ⟨b.val % 16, by omega⟩]

/-- Hex encoding of a byte string. -/
def hexEncode : List (Fin 256) → List Char
  | [] => []
  | b :: rest => hexByte b ++ hexEncode rest

/-- Modelled from the spec: the constant-time equality check of §4.1 —
compare lengths, then fold over all character pairs accumulating a
single flag, without early exit on the first mismatch. -/
def constantTimeEq (a b : List Char) : Bool :=
  (a.length == b.length) &&
    ((a.zip b).foldl (fun acc p => acc && (p.1 == p.2)) true)

/-- Modelled from the spec: `verify(rawBody, providedSignature)` of
§4.1.  The MAC primitive itself is abstract (a parameter), the body is
a bit string, and an absent signature header is `none`. Returns false —
it is a total function, so it never throws — on absent, malformed or
mismatched signatures. -/
def verify (mac : List Bool → String → List (Fin 256)) (secret : String)
    (rawBody : List Bool) (providedSignature : Option (List Char)) : Bool :=
  match providedSignature with
  | none => false
  | some sig => constantTimeEq (hexEncode (mac rawBody secret)) sig

/-- Single-bit mutation of a body bit string. -/
def flipBit (i : Nat) (body : List Bool) : List Bool :=
  body.set i (!(body.getD i false))

/-- A concrete keyed-MAC stand-in used to instantiate the abstract MAC
in closed evaluations. -/
def specMacDemo : List Bool → String → List (Fin 256) :=
  fun b _ => b.map (fun x => if x then 1 else 0)

/-- Test whether a part is the tool result paired with a given call
id. -/
def isResultFor (callId : String) : TurnPart → Bool
  | .toolResult c _ => c == callId
  | _ => false

/-- Whether some turn of a history already carries the tool result for
a given call id. -/
def hasResult (history : List Turn) (callId : String) : Bool :=
  history.any fun t => t.parts.any (isResultFor callId)

/-- Modelled from the spec: the part-level work of `resolvePending`
(§4.3) — the composition of `cleanupMessages` and `processToolCalls`
run in `onChatMessage` before model submission, whose bodies
(`src/utils.ts`) are not in the repository sources.  A tool-call part
already paired with a result is kept; an unpaired one is executed and
its result part appended when an execution handler is registered for
the tool, and stripped entirely when none is.  All other parts are kept
unchanged. -/
def resolveParts (executions : String → Option (String → String))
    (resolved : String → Bool) : List TurnPart → List TurnPart
  | [] => []
  | .toolCall tool cid args :: rest =>
    if resolved cid then
      .toolCall tool cid args :: resolveParts executions resolved rest
    else
      match executions tool with
      | some h =>
        .toolCall tool cid args :: .toolResult cid (h args) ::
          resolveParts executions resolved rest
      | none => resolveParts executions resolved rest
  | p :: rest => p :: resolveParts executions resolved rest

/-- Modelled from the spec: `resolvePending(history)` of §4.3 — returns
a new turn sequence, leaving the input unchanged, in which every
pending tool call is either executed (result appended) or stripped. -/
def resolvePending (executions : String → Option (String → String))
    (history : List Turn) : List Turn :=
  history.map fun t =>
    { t with parts := resolveParts executions (hasResult history) t.parts }

/-- A tool-call part is dangling in a history when no turn carries its
result. -/
def isDanglingIn (history : List Turn) : TurnPart → Bool
  | .toolCall _ cid _ => !(hasResult history cid)
  | _ => false

/-- A history is free of dangling tool calls when every tool-call part
of every turn has a matching result somewhere in the history. -/
def noDangling (history : List Turn) : Bool :=
  history.all fun t => t.parts.all fun p => !(isDanglingIn history p)

/-- An execution table with no registered handlers, used to instantiate
closed evaluations. -/
def execsDemo : String → Option (String → String) := fun _ => none

/-- One chunk of the chat response stream: a text delta, a tool-call
event, or the terminal chunk that closes the stream. -/
inductive Chunk
  | textDelta (s : String)
  | toolCallEvt (tool : String)
  | terminal
deriving DecidableEq, Repr

/-- What the model returns for one call: a final turn with no further
tool calls, or a request to run a tool. -/
inductive ModelStep
  | finalTurn (text : String)
  | toolRequest (tool : String)

/-- Modelled from the spec: the `streamText` step loop configured in
`onChatMessage` (its body lives in the vendor `ai` package, with
`stopWhen: stepCountIs(10)` supplied by `server.ts`).  `fuel` is the
number of model-call round-trips still allowed and `step` the index of
the current call: a tool request consumes one round-trip and loops, a
final turn ends the stream, and exhausted fuel ends it as well; the
stream always closes with a terminal chunk. -/
def streamLoop (modelFn : Nat → ModelStep) : Nat → Nat → List Chunk
  | 0, _ => [.terminal]
  | fuel + 1, step =>
    match modelFn step with
    | .finalTurn t => [.textDelta t, .terminal]
    | .toolRequest tool => .toolCallEvt tool :: streamLoop modelFn fuel (step + 1)

/-- The chat response stream of `onChatMessage` with its configured
bound of `maxSteps` model/tool round-trips. -/
def streamChat (maxSteps : Nat) (modelFn : Nat → ModelStep) : List Chunk :=
  streamLoop modelFn maxSteps 0

/-- Number of model round-trips a chunk stream records: every chunk but
the terminal one stands for one model call. -/
def modelCalls (cs : List Chunk) : Nat :=
  cs.countP fun c => match c with
    | .terminal => false
    | _ => true

/-- Phase of one in-flight `handleEvent` invocation, with the
suspension point of `await this.processPayload(...)` sitting between
the duplicate check and the INSERT. -/
inductive ThreadState
  | start
  | toProcess
  | toInsert
  | done (r : Except String Outcome)
deriving Repr

/-- Shared state of N interleaved deliveries: the `events` table and
each delivery's phase. -/
structure SysState where
  store : List EventRow
  threads : List ThreadState

/-- One atomic step of one delivery, mirroring the three phases of
`handleEvent`: the duplicate check (reads the table), the payload
processing (may fail), and the INSERT, which enforces the
`id TEXT PRIMARY KEY` constraint of the table created in `onStart`
atomically — a duplicate insert is rejected with a uniqueness error. -/
def stepThread (pp : String → Except String Unit)
    (eventId etype payload : String) (store : List EventRow) :
    ThreadState → List EventRow × ThreadState
  | .start =>
    if existsId store eventId then (store, .done (.ok .AlreadyProcessed))
    else (store, .toProcess)
  | .toProcess =>
    match pp payload with
    | .error e => (store, .done (.error e))
    | .ok _ => (store, .toInsert)
  | .toInsert =>
    if existsId store eventId then
      (store, .done (.error "UNIQUE constraint failed: events.id"))
    else (store ++ [⟨eventId, etype, payload⟩], .done (.ok .Processed))
  | .done r => (store, .done r)

/-- Run one scheduled step: delivery `i` (if it exists) takes its next
atomic step against the shared table. -/
def schedStep (pp : String → Except String Unit)
    (eventId etype payload : String) (sys : SysState) (i : Nat) : SysState :=
  match sys.threads[i]? with
  | none => sys
  | some t =>
    ⟨(stepThread pp eventId etype payload sys.store t).1,
     sys.threads.set i (stepThread pp eventId etype payload sys.store t).2⟩

/-- Run a whole interleaving schedule, one scheduled step at a time. -/
def runSched (pp : String → Except String Unit)
    (eventId etype payload : String) : List Nat → SysState → SysState
  | [], sys => sys
  | i :: rest, sys =>
    runSched pp eventId etype payload rest
      (schedStep pp eventId etype payload sys i)

/-- N deliveries of the same event against an empty table, none
started yet. -/
def initSys (n : Nat) : SysState :=
  ⟨[], List.replicate n .start⟩

/-- Whether a delivery has finished (returned or thrown). -/
def isDone : ThreadState → Bool
  | .done _ => true
  | _ => false

/-- Whether every delivery has finished. -/
def allDone (sys : SysState) : Bool :=
  sys.threads.all isDone

/-- Interleaving invariant: the table never holds two rows with the
event's id, and while it holds none, no delivery has finished. -/
def SysInv (eventId : String) (sys : SysState) : Prop :=
  countId sys.store eventId ≤ 1 ∧
  (countId sys.store eventId = 0 → ∀ t ∈ sys.threads, isDone t = false)

theorem countId_eq_zero_iff (store : List EventRow) (eventId : String) :
    countId store eventId = 0 ↔ existsId store eventId = false := by
  simp [countId, existsId, List.countP_eq_zero, List.any_eq_true]

theorem countId_append (s t : List EventRow) (eventId : String) :
    countId (s ++ t) eventId = countId s eventId + countId t eventId := by
  simp [countId, List.countP_append]

/-- C1: calling `handleEvent` twice with the same `eventId` and payload
(on a store not yet holding that id, with payload processing
succeeding) leaves exactly one stored row; the second call returns the
store untouched — no insert, no update — and reports the event as
already processed. -/
theorem handleEvent_idempotent
    (pp : String → Except String Unit) (eventId etype payload : String)
    (store : List EventRow)
    (hfresh : countId store eventId = 0)
    (hok : pp payload = .ok ()) :
    countId (handleEvent pp eventId etype payload store).1 eventId = 1 ∧
    (handleEvent pp eventId etype payload store).2 = .ok .Processed ∧
    handleEvent pp eventId etype payload
        (handleEvent pp eventId etype payload store).1 =
      ((handleEvent pp eventId etype payload store).1,
        .ok .AlreadyProcessed) := by
  have hex : existsId store eventId = false :=
    (countId_eq_zero_iff store eventId).mp hfresh
  have hfirst : handleEvent pp eventId etype payload store =
      (store ++ [⟨eventId, etype, payload⟩], .ok .Processed) := by
    simp [handleEvent, hex, hok]
  refine ⟨?_, ?_, ?_⟩
  · rw [hfirst]
    have h1 : countId (store ++ [⟨eventId, etype, payload⟩]) eventId = 1 := by
      rw [countId_append, hfresh]
      simp [countId]
    exact h1
  · rw [hfirst]
  · rw [hfirst]
    have hex2 : existsId (store ++ [⟨eventId, etype, payload⟩]) eventId = true := by
      simp [existsId]
    simp [handleEvent, hex2]

/-- C1 witness: the idempotence theorem applied at a concrete store and
payload processor. -/
theorem handleEvent_idempotent_witness :
    countId ((handleEvent (fun _ => .ok ()) "abc123" "push" "pl") [] ).1 "abc123" = 1 ∧
    ((handleEvent (fun _ => .ok ()) "abc123" "push" "pl") []).2 = .ok .Processed ∧
    handleEvent (fun _ => .ok ()) "abc123" "push" "pl"
        ((handleEvent (fun _ => .ok ()) "abc123" "push" "pl") []).1 =
      (((handleEvent (fun _ => .ok ()) "abc123" "push" "pl") []).1,
        .ok .AlreadyProcessed) :=
  handleEvent_idempotent (fun _ => .ok ()) "abc123" "push" "pl" []
    (by decide) rfl

/-- C2: when payload processing fails on a non-duplicate event, the
exception propagates before the insert statement runs, so the store is
unchanged and no row is written; a retry with the same `eventId` (whose
processing now succeeds) is accepted and processed fully rather than
skipped as a duplicate. -/
theorem handleEvent_failure_no_insert
    (pp pp2 : String → Except String Unit) (eventId etype payload : String)
    (store : List EventRow) (e : String)
    (hfresh : countId store eventId = 0)
    (hfail : pp payload = .error e)
    (hok2 : pp2 payload = .ok ()) :
    handleEvent pp eventId etype payload store = (store, .error e) ∧
    handleEvent pp2 eventId etype payload store =
      (store ++ [⟨eventId, etype, payload⟩], .ok .Processed) := by
  have hex : existsId store eventId = false :=
    (countId_eq_zero_iff store eventId).mp hfresh
  constructor
  · simp [handleEvent, hex, hfail]
  · simp [handleEvent, hex, hok2]

/-- C2 witness: the failure theorem applied at a concrete failing
processor and a concrete succeeding retry. -/
theorem handleEvent_failure_no_insert_witness :
    handleEvent (fun _ => .error "boom") "abc123" "push" "pl" [] =
      ([], .error "boom") ∧
    handleEvent (fun _ => .ok ()) "abc123" "push" "pl" [] =
      ([⟨"abc123", "push", "pl"⟩], .ok .Processed) :=
  handleEvent_failure_no_insert (fun _ => .error "boom") (fun _ => .ok ())
    "abc123" "push" "pl" [] "boom" (by decide) rfl rfl

/-- C3: `onRequest` responds 405 whenever the method is not POST;
otherwise 401 whenever signature verification of the raw body fails;
otherwise, whenever the event is accepted or skipped as a duplicate
(`handleEvent` returns an outcome rather than an exception, which
presupposes the body parsed), it responds 200 with the updated store. -/
theorem onRequest_status_policy
    (vs : String → Option String → Bool) (parse : String → Option String)
    (pp : String → Except String Unit) (eventId : String)
    (store : List EventRow) (req : HttpRequest) :
    (req.method ≠ "POST" →
      onRequest vs parse pp eventId store req =
        .ok (⟨405, "Method not allowed"⟩, store)) ∧
    (req.method = "POST" → vs req.body req.signatureHeader = false →
      onRequest vs parse pp eventId store req =
        .ok (⟨401, "Invalid signature"⟩, store)) ∧
    (req.method = "POST" → vs req.body req.signatureHeader = true →
      ∀ payload store2 outcome, parse req.body = some payload →
        handleEvent pp eventId (req.eventTypeHeader.getD "") payload store =
          (store2, .ok outcome) →
        onRequest vs parse pp eventId store req = .ok (⟨200, "OK"⟩, store2)) := by
  refine ⟨?_, ?_, ?_⟩
  · intro hm
    simp [onRequest, hm]
  · intro hm hv
    simp [onRequest, hm, hv]
  · intro hm hv payload store2 outcome hp hh
    simp [onRequest, hm, hv, hp, hh]

/-- C3 witness: the status-policy theorem applied at a concrete
verifier, parser, processor and request for each of the three
branches. -/
theorem onRequest_status_policy_witness :
    onRequest (fun _ _ => true) (fun _ => some "p") (fun _ => .ok ()) "e1" []
        ⟨"GET", none, none, "b"⟩ = .ok (⟨405, "Method not allowed"⟩, []) ∧
    onRequest (fun _ _ => false) (fun _ => some "p") (fun _ => .ok ()) "e1" []
        ⟨"POST", none, none, "b"⟩ = .ok (⟨401, "Invalid signature"⟩, []) ∧
    onRequest (fun _ _ => true) (fun _ => some "p") (fun _ => .ok ()) "e1" []
        ⟨"POST", some "push", some "sig", "b"⟩ =
      .ok (⟨200, "OK"⟩, [⟨"e1", "push", "p"⟩]) :=
  ⟨(onRequest_status_policy (fun _ _ => true) (fun _ => some "p")
      (fun _ => .ok ()) "e1" [] ⟨"GET", none, none, "b"⟩).1 (by decide),
   (onRequest_status_policy (fun _ _ => false) (fun _ => some "p")
      (fun _ => .ok ()) "e1" [] ⟨"POST", none, none, "b"⟩).2.1 rfl rfl,
   (onRequest_status_policy (fun _ _ => true) (fun _ => some "p")
      (fun _ => .ok ()) "e1" [] ⟨"POST", some "push", some "sig", "b"⟩).2.2
     rfl rfl "p" [⟨"e1", "push", "p"⟩] .Processed rfl rfl⟩

/-- C10: on a POST request whose signature verifies but whose body does
not parse as JSON, the unguarded `JSON.parse` throws, so `onRequest`
produces an uncaught exception and returns none of the 200, 401 or 405
responses. -/
theorem onRequest_throws_on_invalid_json
    (vs : String → Option String → Bool) (parse : String → Option String)
    (pp : String → Except String Unit) (eventId : String)
    (store : List EventRow) (req : HttpRequest)
    (hm : req.method = "POST")
    (hv : vs req.body req.signatureHeader = true)
    (hp : parse req.body = none) :
    onRequest vs parse pp eventId store req = .error "SyntaxError: JSON.parse" ∧
    ∀ r : HttpResponse × List EventRow,
      onRequest vs parse pp eventId store req ≠ .ok r := by
  have h : onRequest vs parse pp eventId store req =
      .error "SyntaxError: JSON.parse" := by
    simp [onRequest, hm, hv, hp]
  exact ⟨h, fun r hr => by rw [h] at hr; exact Except.noConfusion hr⟩

/-- C10 witness: a concrete POST request with a valid signature and a
non-JSON body on which the handler throws. -/
theorem onRequest_throws_on_invalid_json_witness :
    onRequest (fun _ _ => true) (fun _ => none) (fun _ => .ok ()) "e1" []
        ⟨"POST", some "push", some "sig", "not json"⟩ =
      .error "SyntaxError: JSON.parse" ∧
    ∀ r : HttpResponse × List EventRow,
      onRequest (fun _ _ => true) (fun _ => none) (fun _ => .ok ()) "e1" []
        ⟨"POST", some "push", some "sig", "not json"⟩ ≠ .ok r :=
  onRequest_throws_on_invalid_json (fun _ _ => true) (fun _ => none)
    (fun _ => .ok ()) "e1" [] ⟨"POST", some "push", some "sig", "not json"⟩
    rfl rfl rfl

/-- C8: `executeTask` appends exactly one synthesized user-role turn
whose single text part describes the task, and every previously saved
turn is preserved unchanged, in order, at its old position. -/
theorem executeTask_appends_one_user_turn
    (description newId now : String) (messages : List Turn) :
    (executeTask description newId now messages).length = messages.length + 1 ∧
    (executeTask description newId now messages).take messages.length = messages ∧
    (executeTask description newId now messages).getLast? =
      some { id := newId, role := "user",
             parts := [.text ("Running scheduled task: " ++ description)],
             createdAt := some now } := by
  refine ⟨by simp [executeTask], ?_, by simp [executeTask]⟩
  simp [executeTask, List.take_append]

/-- C9 counterexample: with the API key set to the empty string, the
`/check-open-ai-key` endpoint reports `success = false` even though the
key is not unset, refuting that `success = false` holds exactly when
the key is unset. -/
theorem workerFetch_success_false_on_empty_key :
    (workerFetch (some "") "/check-open-ai-key" true).response = .json false ∧
    (some "" : Option String) ≠ none := by
  constructor
  · rfl
  · intro h
    exact Option.noConfusion h

/-- C9 (amended): the `/check-open-ai-key` endpoint reports
`success = false` exactly when the key is unset or set to the empty
string (JavaScript falsiness of `process.env`), and on every other path
`fetch` emits the missing-key report under exactly the same
condition. -/
theorem workerFetch_key_detection (apiKey : Option String)
    (path : String) (routed routed2 : Bool) :
    ((workerFetch apiKey "/check-open-ai-key" routed).response = .json false ↔
      (apiKey = none ∨ apiKey = some "")) ∧
    (path ≠ "/check-open-ai-key" →
      ((workerFetch apiKey path routed2).reportedMissingKey = true ↔
        (apiKey = none ∨ apiKey = some ""))) := by
  have hkey : jsTruthy apiKey = false ↔ (apiKey = none ∨ apiKey = some "") := by
    cases apiKey with
    | none => simp [jsTruthy]
    | some s => simp [jsTruthy, bne_eq_false_iff_eq]
  constructor
  · rw [← hkey]
    simp [workerFetch]
  · intro hpath
    rw [← hkey]
    have hne : (path == "/check-open-ai-key") = false := by
      simpa using hpath
    simp [workerFetch, hne]

/-- C9 witness: the amended detection theorem applied with the key
unset on a non-check path, giving the emitted report, and at the check
endpoint, giving `success = false`. -/
theorem workerFetch_key_detection_witness :
    (workerFetch none "/check-open-ai-key" true).response = .json false ∧
    (workerFetch none "/agents/chat/x" true).reportedMissingKey = true :=
  ⟨(workerFetch_key_detection none "/agents/chat/x" true true).1.mpr (Or.inl rfl),
   ((workerFetch_key_detection none "/agents/chat/x" true true).2
      (by decide)).mpr (Or.inl rfl)⟩

theorem hexDigit_inj : ∀ a b : Fin 16, hexDigit a = hexDigit b → a = b := by
  decide

theorem hexByte_inj (a b : Fin 256) (h : hexByte a = hexByte b) : a = b := by
  simp only [hexByte, List.cons.injEq, and_true] at h
  obtain ⟨h1, h2⟩ := h
  have d1 : a.val / 16 = b.val / 16 :=
    congrArg Fin.val (hexDigit_inj _ _ h1)
  have d2 : a.val % 16 = b.val % 16 :=
    congrArg Fin.val (hexDigit_inj _ _ h2)
  apply Fin.ext
  omega

theorem hexEncode_inj : ∀ a b : List (Fin 256), hexEncode a = hexEncode b → a = b := by
  intro a
  induction a with
  | nil =>
    intro b h
    cases b with
    | nil => rfl
    | cons y t2 => simp [hexEncode, hexByte] at h
  | cons x t ih =>
    intro b h
    cases b with
    | nil => simp [hexEncode, hexByte] at h
    | cons y t2 =>
      simp only [hexEncode, hexByte, List.cons_append, List.nil_append,
        List.cons.injEq] at h
      obtain ⟨h1, h2, h3⟩ := h
      have hxy : x = y := hexByte_inj x y (by simp [hexByte, h1, h2])
      rw [hxy, ih t2 h3]

theorem foldl_and_eq (f : Char × Char → Bool) :
    ∀ (l : List (Char × Char)) (acc : Bool),
      l.foldl (fun acc p => acc && f p) acc = (acc && l.all f) := by
  intro l
  induction l with
  | nil => intro acc; simp
  | cons p t ih =>
    intro acc
    simp [List.foldl_cons, ih, Bool.and_assoc]

theorem constantTimeEq_iff : ∀ a b : List Char, constantTimeEq a b = true ↔ a = b := by
  intro a
  induction a with
  | nil =>
    intro b
    cases b <;> simp [constantTimeEq]
  | cons h t ih =>
    intro b
    cases b with
    | nil => simp [constantTimeEq]
    | cons h2 t2 =>
      have expand : constantTimeEq (h :: t) (h2 :: t2) =
          ((h == h2) && constantTimeEq t t2) := by
        simp [constantTimeEq, foldl_and_eq, List.zip_cons_cons]
        cases h == h2 <;> cases t.length == t2.length <;> simp
      rw [expand]
      simp [ih t2]

theorem verify_eq_false_of_ne (mac : List Bool → String → List (Fin 256))
    (secret : String) (body : List Bool) (sig : List Char)
    (hne : sig ≠ hexEncode (mac body secret)) :
    verify mac secret body (some sig) = false := by
  apply Bool.eq_false_iff.mpr
  intro htrue
  exact hne ((constantTimeEq_iff _ _).mp htrue).symm

/-- C5: the verifier accepts the hex-encoded MAC of the body it was
computed from; any single-bit mutation of the body (whenever the MAC
distinguishes the mutated body, which is the property assumed of the
keyed MAC the spec leaves abstract) is rejected; any signature other
than the correct one — in particular any single-character mutation of
it, and any malformed string — is rejected; an absent signature is
rejected; and `verify` is a total function, so it never throws. -/
theorem verify_mac_roundtrip_and_mutation
    (mac : List Bool → String → List (Fin 256)) (secret : String)
    (body : List Bool) :
    verify mac secret body (some (hexEncode (mac body secret))) = true ∧
    (∀ i, i < body.length →
      mac (flipBit i body) secret ≠ mac body secret →
      verify mac secret (flipBit i body)
        (some (hexEncode (mac body secret))) = false) ∧
    (∀ sig, sig ≠ hexEncode (mac body secret) →
      verify mac secret body (some sig) = false) ∧
    (∀ i c, i < (hexEncode (mac body secret)).length →
      c ≠ (hexEncode (mac body secret)).getD i ' ' →
      verify mac secret body
        (some ((hexEncode (mac body secret)).set i c)) = false) ∧
    verify mac secret body none = false := by
  refine ⟨?_, ?_, ?_, ?_, rfl⟩
  · show constantTimeEq (hexEncode (mac body secret))
      (hexEncode (mac body secret)) = true
    exact (constantTimeEq_iff _ _).mpr rfl
  · intro i hi hmac
    apply Bool.eq_false_iff.mpr
    intro htrue
    have hEnc : hexEncode (mac (flipBit i body) secret) =
        hexEncode (mac body secret) := (constantTimeEq_iff _ _).mp htrue
    exact hmac (hexEncode_inj _ _ hEnc)
  · intro sig hne
    exact verify_eq_false_of_ne mac secret body sig hne
  · intro i c hi hc
    apply verify_eq_false_of_ne
    intro hset
    apply hc
    have := congrArg (fun xs => xs.getD i ' ') hset
    simpa [List.getD, List.getElem?_set_self, hi] using this

/-- C5 witness: the verifier theorem applied with a concrete MAC
stand-in, body and secret: round-trip acceptance, rejection of a
bit-flipped body, of a wrong signature, of a mutated signature
character, and of an absent signature. -/
theorem verify_mac_roundtrip_and_mutation_witness :
    verify specMacDemo "k" [true] (some (hexEncode (specMacDemo [true] "k"))) = true ∧
    verify specMacDemo "k" (flipBit 0 [true])
      (some (hexEncode (specMacDemo [true] "k"))) = false ∧
    verify specMacDemo "k" [true] (some []) = false ∧
    verify specMacDemo "k" [true]
      (some ((hexEncode (specMacDemo [true] "k")).set 0 'x')) = false ∧
    verify specMacDemo "k" [true] none = false :=
  ⟨(verify_mac_roundtrip_and_mutation specMacDemo "k" [true]).1,
   (verify_mac_roundtrip_and_mutation specMacDemo "k" [true]).2.1 0
     (by decide) (by decide),
   (verify_mac_roundtrip_and_mutation specMacDemo "k" [true]).2.2.1 []
     (by decide),
   (verify_mac_roundtrip_and_mutation specMacDemo "k" [true]).2.2.2.1 0 'x'
     (by decide) (by decide),
   (verify_mac_roundtrip_and_mutation specMacDemo "k" [true]).2.2.2.2⟩

theorem streamLoop_concat (modelFn : Nat → ModelStep) :
    ∀ fuel step, ∃ cs, streamLoop modelFn fuel step = cs ++ [Chunk.terminal] := by
  intro fuel
  induction fuel with
  | zero => intro step; exact ⟨[], rfl⟩
  | succ f ih =>
    intro step
    cases h : modelFn step with
    | finalTurn t => exact ⟨[.textDelta t], by simp [streamLoop, h]⟩
    | toolRequest tool =>
      obtain ⟨cs, hcs⟩ := ih (step + 1)
      exact ⟨.toolCallEvt tool :: cs, by simp [streamLoop, h, hcs]⟩

theorem streamLoop_calls_le (modelFn : Nat → ModelStep) :
    ∀ fuel step, modelCalls (streamLoop modelFn fuel step) ≤ fuel := by
  intro fuel
  induction fuel with
  | zero => intro step; simp [streamLoop, modelCalls]
  | succ f ih =>
    intro step
    cases h : modelFn step with
    | finalTurn t => simp [streamLoop, h, modelCalls]
    | toolRequest tool =>
      have hrec := ih (step + 1)
      have hgoal : modelCalls (streamLoop modelFn (f + 1) step) =
          modelCalls (streamLoop modelFn f (step + 1)) + 1 := by
        simp [streamLoop, h, modelCalls, List.countP_cons]
      rw [hgoal]
      omega

/-- C7: with the configured bound of 10 steps, the chat response
stream performs at most 10 model/tool round-trips and closes with a
terminal chunk, for every model behaviour — in particular one that
requests another tool call on every step. -/
theorem streamChat_terminates_within_maxSteps (modelFn : Nat → ModelStep) :
    modelCalls (streamChat 10 modelFn) ≤ 10 ∧
    (streamChat 10 modelFn).getLast? = some Chunk.terminal := by
  constructor
  · exact streamLoop_calls_le modelFn 10 0
  · obtain ⟨cs, hcs⟩ := streamLoop_concat modelFn 10 0
    rw [streamChat, hcs]
    exact List.getLast?_concat cs

theorem resolveParts_keeps_results (ex : String → Option (String → String))
    (res : String → Bool) (cid r : String) :
    ∀ ps : List TurnPart, TurnPart.toolResult cid r ∈ ps →
      TurnPart.toolResult cid r ∈ resolveParts ex res ps := by
  intro ps
  induction ps with
  | nil => intro h; exact absurd h (List.not_mem_nil _)
  | cons p rest ih =>
    intro hmem
    rcases List.mem_cons.mp hmem with heq | hrest
    · cases p with
      | text s => exact absurd heq (by simp)
      | toolCall tool2 cid2 args2 => exact absurd heq (by simp)
      | toolResult c2 r2 =>
        rw [← heq]
        simp [resolveParts]
    · cases p with
      | text s => simp [resolveParts, ih hrest]
      | toolResult c2 r2 => simp [resolveParts, ih hrest]
      | toolCall tool2 cid2 args2 =>
        by_cases hr : res cid2 = true
        · simp [resolveParts, hr, ih hrest]
        · cases hex : ex tool2 with
          | some h2 =>
            simp [resolveParts, hr, hex, ih hrest]
          | none =>
            simpa [resolveParts, hr, hex] using ih hrest

theorem resolveParts_no_dangling (ex : String → Option (String → String))
    (res : String → Bool) :
    ∀ (ps : List TurnPart) (tool cid args : String),
      TurnPart.toolCall tool cid args ∈ resolveParts ex res ps →
      res cid = true ∨ ∃ r, TurnPart.toolResult cid r ∈ resolveParts ex res ps := by
  intro ps
  induction ps with
  | nil => intro tool cid args h; exact absurd h (by simp [resolveParts])
  | cons p rest ih =>
    intro tool cid args h
    cases p with
    | text s =>
      rw [show resolveParts ex res (.text s :: rest) =
            .text s :: resolveParts ex res rest from rfl] at h
      rcases List.mem_cons.mp h with heq | hrest
      · exact absurd heq (by simp)
      · rcases ih tool cid args hrest with h1 | ⟨r, hr⟩
        · exact Or.inl h1
        · exact Or.inr ⟨r, by simp [resolveParts, hr]⟩
    | toolResult c2 r2 =>
      rw [show resolveParts ex res (.toolResult c2 r2 :: rest) =
            .toolResult c2 r2 :: resolveParts ex res rest from rfl] at h
      rcases List.mem_cons.mp h with heq | hrest
      · exact absurd heq (by simp)
      · rcases ih tool cid args hrest with h1 | ⟨r, hr⟩
        · exact Or.inl h1
        · exact Or.inr ⟨r, by simp [resolveParts, hr]⟩
    | toolCall tool2 cid2 args2 =>
      by_cases hres : res cid2 = true
      · rw [show resolveParts ex res (.toolCall tool2 cid2 args2 :: rest) =
              .toolCall tool2 cid2 args2 :: resolveParts ex res rest
            from by simp [resolveParts, hres]] at h
        rcases List.mem_cons.mp h with heq | hrest
        · obtain ⟨h1, h2, h3⟩ := TurnPart.toolCall.inj heq
          exact Or.inl (h2 ▸ hres)
        · rcases ih tool cid args hrest with h1 | ⟨r, hr⟩
          · exact Or.inl h1
          · exact Or.inr ⟨r, by simp [resolveParts, hres, hr]⟩
      · cases hex : ex tool2 with
        | some h2 =>
          rw [show resolveParts ex res (.toolCall tool2 cid2 args2 :: rest) =
                .toolCall tool2 cid2 args2 ::
                  .toolResult cid2 (h2 args2) :: resolveParts ex res rest
              from by simp [resolveParts, hres, hex]] at h
          rcases List.mem_cons.mp h with heq | h3
          · obtain ⟨h1', h2', h3'⟩ := TurnPart.toolCall.inj heq
            refine Or.inr ⟨h2 args2, ?_⟩
            rw [h2']
            simp [resolveParts, hres, hex]
          · rcases List.mem_cons.mp h3 with heq2 | hrest
            · exact absurd heq2 (by simp)
            · rcases ih tool cid args hrest with h1 | ⟨r, hr⟩
              · exact Or.inl h1
              · exact Or.inr ⟨r, by simp [resolveParts, hres, hex, hr]⟩
        | none =>
          rw [show resolveParts ex res (.toolCall tool2 cid2 args2 :: rest) =
                resolveParts ex res rest
              from by simp [resolveParts, hres, hex]] at h
          rcases ih tool cid args h with h1 | ⟨r, hr⟩
          · exact Or.inl h1
          · exact Or.inr ⟨r, by simp [resolveParts, hres, hex, hr]⟩

theorem resolveParts_not_mem_unhandled (ex : String → Option (String → String))
    (res : String → Bool) (tool cid args : String)
    (hres : res cid = false) (hex : ex tool = none) :
    ∀ ps : List TurnPart, TurnPart.toolCall tool cid args ∉ resolveParts ex res ps := by
  intro ps
  induction ps with
  | nil => simp [resolveParts]
  | cons p rest ih =>
    cases p with
    | text s =>
      intro h
      rcases List.mem_cons.mp h with heq | hrest
      · exact absurd heq (by simp)
      · exact ih hrest
    | toolResult c2 r2 =>
      intro h
      rcases List.mem_cons.mp h with heq | hrest
      · exact absurd heq (by simp)
      · exact ih hrest
    | toolCall tool2 cid2 args2 =>
      by_cases hres2 : res cid2 = true
      · rw [show resolveParts ex res (.toolCall tool2 cid2 args2 :: rest) =
              .toolCall tool2 cid2 args2 :: resolveParts ex res rest
            from by simp [resolveParts, hres2]]
        intro h
        rcases List.mem_cons.mp h with heq | hrest
        · obtain ⟨h1, h2, h3⟩ := TurnPart.toolCall.inj heq
          rw [← h2] at hres2
          exact absurd hres2 (by simp [hres])
        · exact ih hrest
      · cases hex2 : ex tool2 with
        | some h2 =>
          rw [show resolveParts ex res (.toolCall tool2 cid2 args2 :: rest) =
                .toolCall tool2 cid2 args2 ::
                  .toolResult cid2 (h2 args2) :: resolveParts ex res rest
              from by simp [resolveParts, hres2, hex2]]
          intro h
          rcases List.mem_cons.mp h with heq | h3
          · obtain ⟨h1', h2', h3'⟩ := TurnPart.toolCall.inj heq
            rw [← h1'] at hex2
            rw [hex] at hex2
            exact Option.noConfusion hex2
          · rcases List.mem_cons.mp h3 with heq2 | hrest
            · exact absurd heq2 (by simp)
            · exact ih hrest
        | none =>
          rw [show resolveParts ex res (.toolCall tool2 cid2 args2 :: rest) =
                resolveParts ex res rest
              from by simp [resolveParts, hres2, hex2]]
          exact ih

theorem hasResult_resolvePending (ex : String → Option (String → String))
    (history : List Turn) (cid : String)
    (h : hasResult history cid = true) :
    hasResult (resolvePending ex history) cid = true := by
  simp only [hasResult, List.any_eq_true] at h
  obtain ⟨t, ht, p, hp, hfor⟩ := h
  cases p with
  | text s => exact absurd hfor (by simp [isResultFor])
  | toolCall tool2 cid2 args2 => exact absurd hfor (by simp [isResultFor])
  | toolResult c2 r2 =>
    simp only [hasResult, List.any_eq_true]
    refine ⟨{ t with parts := resolveParts ex (hasResult history) t.parts },
      List.mem_map_of_mem _ ht, TurnPart.toolResult c2 r2, ?_, hfor⟩
    exact resolveParts_keeps_results ex (hasResult history) c2 r2 t.parts hp

theorem noDangling_resolvePending (ex : String → Option (String → String))
    (history : List Turn) :
    noDangling (resolvePending ex history) = true := by
  simp only [noDangling, List.all_eq_true]
  intro t' ht' p hp
  cases p with
  | text s => rfl
  | toolResult c2 r2 => rfl
  | toolCall tool cid args =>
    obtain ⟨t0, ht0, rfl⟩ := List.mem_map.mp ht'
    have hp' : TurnPart.toolCall tool cid args ∈
        resolveParts ex (hasResult history) t0.parts := hp
    rcases resolveParts_no_dangling ex (hasResult history) t0.parts
        tool cid args hp' with hres | ⟨r, hr⟩
    · have := hasResult_resolvePending ex history cid hres
      simp [isDanglingIn, this]
    · have : hasResult (resolvePending ex history) cid = true := by
        simp only [hasResult, List.any_eq_true]
        exact ⟨{ t0 with parts := resolveParts ex (hasResult history) t0.parts },
          List.mem_map_of_mem _ ht0, TurnPart.toolResult cid r, hr,
          by simp [isResultFor]⟩
      simp [isDanglingIn, this]

/-- C6: on a history ending in a tool-call part that has no matching
tool result and whose tool has no registered execution handler, the
continuation step run before model submission removes that call from
every produced turn, and the produced history has no dangling tool-call
parts at all. -/
theorem resolvePending_strips_unhandled
    (executions : String → Option (String → String))
    (history front : List Turn) (lastTurn : Turn) (tool cid args : String)
    (_hsplit : history = front ++ [lastTurn])
    (_hmem : TurnPart.toolCall tool cid args ∈ lastTurn.parts)
    (hunres : hasResult history cid = false)
    (hnoexec : executions tool = none) :
    (∀ t ∈ resolvePending executions history,
      TurnPart.toolCall tool cid args ∉ t.parts) ∧
    noDangling (resolvePending executions history) = true := by
  refine ⟨?_, noDangling_resolvePending executions history⟩
  intro t ht
  obtain ⟨t0, ht0, rfl⟩ := List.mem_map.mp ht
  exact resolveParts_not_mem_unhandled executions (hasResult history)
    tool cid args hunres hnoexec t0.parts

/-- C6 witness: a concrete two-turn history ending in an unresolved
call of a tool with no registered handler. -/
theorem resolvePending_strips_unhandled_witness :
    (∀ t ∈ resolvePending execsDemo
        [{ id := "m1", role := "user", parts := [.text "hi"], createdAt := none },
         { id := "m2", role := "assistant",
           parts := [.toolCall "confirmDelete" "c1" "a1"], createdAt := none }],
      TurnPart.toolCall "confirmDelete" "c1" "a1" ∉ t.parts) ∧
    noDangling (resolvePending execsDemo
        [{ id := "m1", role := "user", parts := [.text "hi"], createdAt := none },
         { id := "m2", role := "assistant",
           parts := [.toolCall "confirmDelete" "c1" "a1"], createdAt := none }]) = true :=
  resolvePending_strips_unhandled execsDemo
    [{ id := "m1", role := "user", parts := [.text "hi"], createdAt := none },
     { id := "m2", role := "assistant",
       parts := [.toolCall "confirmDelete" "c1" "a1"], createdAt := none }]
    [{ id := "m1", role := "user", parts := [.text "hi"], createdAt := none }]
    { id := "m2", role := "assistant",
      parts := [.toolCall "confirmDelete" "c1" "a1"], createdAt := none }
    "confirmDelete" "c1" "a1" rfl (by decide) (by decide) rfl

theorem schedStep_inv (pp : String → Except String Unit)
    (eventId etype payload : String) (hpp : pp payload = .ok ())
    (sys : SysState) (i : Nat) (hinv : SysInv eventId sys) :
    SysInv eventId (schedStep pp eventId etype payload sys i) := by
  obtain ⟨hle, hzero⟩ := hinv
  cases hget : sys.threads[i]? with
  | none => simpa [schedStep, hget] using ⟨hle, hzero⟩
  | some t =>
    have htmem : t ∈ sys.threads := List.getElem?_mem hget
    simp only [schedStep, hget]
    cases t with
    | start =>
      by_cases hex : existsId sys.store eventId = true
      · simp only [stepThread, hex, if_true]
        refine ⟨hle, ?_⟩
        intro hc
        exact absurd ((countId_eq_zero_iff _ _).mp hc) (by simp [hex])
      · simp only [stepThread, hex, if_false, Bool.not_eq_true] at *
        simp only [hex, if_false, Bool.false_eq_true]
        refine ⟨hle, ?_⟩
        intro hc t' ht'
        rcases List.mem_or_eq_of_mem_set ht' with hmem' | rfl
        · exact hzero hc t' hmem'
        · rfl
    | toProcess =>
      simp only [stepThread, hpp]
      refine ⟨hle, ?_⟩
      intro hc t' ht'
      rcases List.mem_or_eq_of_mem_set ht' with hmem' | rfl
      · exact hzero hc t' hmem'
      · rfl
    | toInsert =>
      by_cases hex : existsId sys.store eventId = true
      · simp only [stepThread, hex, if_true]
        refine ⟨hle, ?_⟩
        intro hc
        exact absurd ((countId_eq_zero_iff _ _).mp hc) (by simp [hex])
      · have hc0 : countId sys.store eventId = 0 :=
          (countId_eq_zero_iff _ _).mpr (Bool.not_eq_true _ ▸ eq_false_of_ne_true hex)
        simp only [stepThread, hex, if_false, Bool.false_eq_true]
        have hcount : countId (sys.store ++ [⟨eventId, etype, payload⟩]) eventId = 1 := by
          rw [countId_append, hc0]
          simp [countId]
        constructor
        · simp [hcount]
        · intro hc
          rw [hcount] at hc
          exact absurd hc (by simp)
    | done r =>
      simp only [stepThread]
      refine ⟨hle, ?_⟩
      intro hc
      exact absurd (hzero hc _ htmem) (by simp [isDone])

theorem runSched_inv (pp : String → Except String Unit)
    (eventId etype payload : String) (hpp : pp payload = .ok ()) :
    ∀ (sched : List Nat) (sys : SysState), SysInv eventId sys →
      SysInv eventId (runSched pp eventId etype payload sched sys) := by
  intro sched
  induction sched with
  | nil => intro sys h; exact h
  | cons i rest ih =>
    intro sys h
    exact ih _ (schedStep_inv pp eventId etype payload hpp sys i h)

theorem runSched_threads_length (pp : String → Except String Unit)
    (eventId etype payload : String) :
    ∀ (sched : List Nat) (sys : SysState),
      (runSched pp eventId etype payload sched sys).threads.length =
        sys.threads.length := by
  intro sched
  induction sched with
  | nil => intro sys; rfl
  | cons i rest ih =>
    intro sys
    rw [show runSched pp eventId etype payload (i :: rest) sys =
          runSched pp eventId etype payload rest
            (schedStep pp eventId etype payload sys i) from rfl, ih]
    cases hget : sys.threads[i]? with
    | none => simp [schedStep, hget]
    | some t => simp [schedStep, hget, List.length_set]

/-- C4: for every interleaving of N concurrent deliveries of the same
`eventId` (each step atomic: the duplicate check, the suspending
payload processing, the INSERT with its PRIMARY KEY constraint), once
all deliveries have finished the table holds exactly one row with that
id.  The closed conjuncts exhibit the race on a two-delivery
interleaving: both deliveries pass the existence check before either
inserts, and it is the uniqueness constraint at INSERT time — not the
check — that rejects the second insert, leaving one row and a
constraint error in the losing delivery. -/
theorem handleEvent_concurrent_single_row
    (pp : String → Except String Unit) (eventId etype payload : String)
    (n : Nat) (sched : List Nat)
    (hpp : pp payload = .ok ()) (hn : 1 ≤ n)
    (hdone : allDone (runSched pp eventId etype payload sched (initSys n)) = true) :
    countId (runSched pp eventId etype payload sched (initSys n)).store eventId = 1 ∧
    (runSched (fun _ => Except.ok ()) "evt" "push" "pl" [0, 1]
        (initSys 2)).threads = [ThreadState.toProcess, ThreadState.toProcess] ∧
    runSched (fun _ => Except.ok ()) "evt" "push" "pl" [0, 1, 0, 1, 0, 1]
        (initSys 2) =
      ⟨[⟨"evt", "push", "pl"⟩],
       [ThreadState.done (.ok .Processed),
        ThreadState.done (.error "UNIQUE constraint failed: events.id")]⟩ := by
  refine ⟨?_, rfl, rfl⟩
  have hinit : SysInv eventId (initSys n) := by
    constructor
    · simp [initSys, countId]
    · intro _ t ht
      rw [List.eq_of_mem_replicate ht]
      rfl
  obtain ⟨hle, hzero⟩ :=
    runSched_inv pp eventId etype payload hpp sched (initSys n) hinit
  rcases Nat.lt_or_ge
      (countId (runSched pp eventId etype payload sched (initSys n)).store eventId)
      1 with hlt | hge
  · exfalso
    have hc : countId (runSched pp eventId etype payload sched (initSys n)).store
        eventId = 0 := by omega
    have hlen : (runSched pp eventId etype payload sched (initSys n)).threads.length
        = n := by
      rw [runSched_threads_length]
      simp [initSys]
    have h0 : 0 < (runSched pp eventId etype payload sched (initSys n)).threads.length := by
      omega
    have ht0 : (runSched pp eventId etype payload sched (initSys n)).threads[0] ∈
        (runSched pp eventId etype payload sched (initSys n)).threads :=
      List.getElem_mem h0
    have hnotdone := hzero hc _ ht0
    have hisdone := List.all_eq_true.mp hdone _ ht0
    rw [hnotdone] at hisdone
    exact absurd hisdone (by simp)
  · omega

/-- C4 witness: two deliveries of the same event under the alternating
schedule in which both pass the existence check before either inserts;
the theorem applied there yields the single stored row. -/
theorem handleEvent_concurrent_single_row_witness :
    countId (runSched (fun _ => Except.ok ()) "evt" "push" "pl"
        [0, 1, 0, 1, 0, 1] (initSys 2)).store "evt" = 1 ∧
    (runSched (fun _ => Except.ok ()) "evt" "push" "pl" [0, 1]
        (initSys 2)).threads = [ThreadState.toProcess, ThreadState.toProcess] ∧
    runSched (fun _ => Except.ok ()) "evt" "push" "pl" [0, 1, 0, 1, 0, 1]
        (initSys 2) =
      ⟨[⟨"evt", "push", "pl"⟩],
       [ThreadState.done (.ok .Processed),
        ThreadState.done (.error "UNIQUE constraint failed: events.id")]⟩ :=
  handleEvent_concurrent_single_row (fun _ => Except.ok ()) "evt" "push" "pl"
    2 [0, 1, 0, 1, 0, 1] rfl (by decide) (by decide)
